import Mathlib

/-!
Verification development for the mless match/hint engine and rendering
contract.  The repository ships the end-to-end test suite; the core the
tests exercise is described by the specification, so the definitions
below are modelled from the spec (each such definition says so in its
doc comment) and the claims are settled against this model.
-/

namespace Mless

/-- Terminal color value: the default color, the named 16-colors used by
the tests (red, blue), or any other resolved color treated opaquely. -/
inductive Color where
  | default
  | red
  | blue
  | other (n : Nat)
deriving DecidableEq, Repr

/-- Style of one cell: foreground, background and the bold flag. -/
structure Style where
  fg : Color
  bg : Color
  bold : Bool
deriving DecidableEq, Repr

/-- The style of unstyled text. -/
def Style.plain : Style := ⟨Color.default, Color.default, false⟩

/-- SGR state transitions carried by escape sequences in the input. -/
inductive Sgr where
  | reset
  | setFg (c : Color)
  | setBg (c : Color)
  | setBold
deriving DecidableEq, Repr

/-- One token of the raw input stream: a grapheme cluster together with
its terminal column width, a newline, or an SGR escape sequence. -/
inductive Token where
  | g (cluster : String) (width : Nat)
  | nl
  | sgr (code : Sgr)
deriving DecidableEq, Repr

/-- One cell: a grapheme cluster, its display width and its style. -/
structure Cell where
  cluster : String
  width : Nat
  style : Style
deriving DecidableEq, Repr

/-- The blank cell used for padding. -/
def blankCell : Cell := ⟨" ", 1, Style.plain⟩

/-- A line is an ordered sequence of cells. -/
abbrev Line := List Cell

/-- Plain-text projection of a line: its grapheme clusters in order. -/
def plainOf (l : Line) : List String := l.map Cell.cluster

/-- Apply one SGR transition to the current style state. -/
def applySgr (st : Style) : Sgr → Style
  | Sgr.reset => Style.plain
  | Sgr.setFg c => { st with fg := c }
  | Sgr.setBg c => { st with bg := c }
  | Sgr.setBold => { st with bold := true }

/-- Modelled from the spec: the Cell Buffer decoder (the implementation
is not part of this repository).  SGR sequences are style-state
transitions applying to subsequent graphemes and are invisible in plain
text; a newline terminates the current line; a trailing newline is a
terminator and produces no trailing empty line.  `st` is the current
SGR style state and `cur` the cells of the current line, reversed. -/
def decodeAux : List Token → Style → Line → List Line
  | [], _, cur => if cur.isEmpty then [] else [cur.reverse]
  | Token.g c w :: ts, st, cur => decodeAux ts st (⟨c, w, st⟩ :: cur)
  | Token.nl :: ts, st, cur => cur.reverse :: decodeAux ts st []
  | Token.sgr s :: ts, st, cur => decodeAux ts (applySgr st s) cur

/-- Decode the raw input stream into the list of lines. -/
def decode (ts : List Token) : List Line := decodeAux ts Style.plain []

/-- Remove every SGR escape from an input stream, keeping the text. -/
def stripSgr : List Token → List Token
  | [] => []
  | Token.sgr _ :: ts => stripSgr ts
  | t :: ts => t :: stripSgr ts

/-- Replace the width of every grapheme token by a function of it. -/
def mapWidths (f : Nat → Nat) : List Token → List Token
  | [] => []
  | Token.g c w :: ts => Token.g c (f w) :: mapWidths f ts
  | t :: ts => t :: mapWidths f ts

/-- Grapheme clusters of a newline-free token segment, in order. -/
def toksPlain : List Token → List String
  | [] => []
  | Token.g c _ :: ts => c :: toksPlain ts
  | Token.nl :: ts => toksPlain ts
  | Token.sgr _ :: ts => toksPlain ts

/-- Concatenate segments, terminating each with a newline token. -/
def joinTerminated : List (List Token) → List Token
  | [] => []
  | s :: ss => s ++ Token.nl :: joinTerminated ss

/-- Boolean test that the first list is an initial segment of the
second. -/
def leadsL {α : Type} [DecidableEq α] : List α → List α → Bool
  | [], _ => true
  | _ :: _, [] => false
  | a :: as, b :: bs => if a = b then leadsL as bs else false

/-- Boolean test that the first string starts the second. -/
def leadsStr (p s : String) : Bool := leadsL p.data s.data

/-- Boolean test that the first list occurs contiguously inside the
second. -/
def containsL {α : Type} [DecidableEq α] : List α → List α → Bool
  | p, [] => p.isEmpty
  | p, b :: bs => leadsL p (b :: bs) || containsL p bs

/-- Modelled from the spec: the Match Engine search (the implementation
is not part of this repository), specialised to the literal patterns the
configured modes of the test suite use.  Find the start indices of all
leftmost, non-overlapping occurrences of `pat` in a plain-text line,
rejecting the zero-width pattern; `i` is the index of the head of the
remaining text and `skip` the number of cells of the most recent match
span still to be passed over. -/
def findOccAux (pat : List String) : List String → Nat → Nat → List Nat
  | [], _, _ => []
  | t :: ts, i, 0 =>
    if 0 < pat.length ∧ leadsL pat (t :: ts) = true then
      i :: findOccAux pat ts (i + 1) (pat.length - 1)
    else
      findOccAux pat ts (i + 1) 0
  | _ :: ts, i, skip + 1 => findOccAux pat ts (i + 1) skip

/-- Start indices of all leftmost, non-overlapping occurrences of `pat`
in the text, the zero-width pattern rejected; after a match the
remaining cells of its span are skipped. -/
def findOcc (pat : List String) (txt : List String) (i : Nat) : List Nat :=
  findOccAux pat txt i 0

/-- A match: its line index, start column in cell units, and matched
plain text (end column is `col + text.length`). -/
structure Match where
  line : Nat
  col : Nat
  text : List String
deriving DecidableEq, Repr

/-- All matches of a literal pattern on one plain-text line. -/
def matchesOfLine (pat : List String) (li : Nat) (txt : List String) : List Match :=
  (findOcc pat txt 0).map (fun c => ⟨li, c, pat⟩)

/-- Matches of all lines starting at line index `i`, in reading order. -/
def findMatchesFrom (pat : List String) : Nat → List (List String) → List Match
  | _, [] => []
  | i, t :: ts => matchesOfLine pat i t ++ findMatchesFrom pat (i + 1) ts

/-- Modelled from the spec: matches of the whole buffer, line ascending
then column ascending. -/
def findMatches (pat : List String) (plains : List (List String)) : List Match :=
  findMatchesFrom pat 0 plains

/-- Digits of `m` in bijective base `k` computed with explicit fuel
(`fuel` at least `m` suffices). -/
def bijDigitsAux (k : Nat) : Nat → Nat → List Nat
  | _, 0 => []
  | 0, _ + 1 => []
  | fuel + 1, m + 1 => if k = 0 then [] else bijDigitsAux k fuel (m / k) ++ [m % k]

/-- Digits (most significant first) of `m` in bijective base `k`; the
empty list for `m = 0` or `k = 0`. -/
def bijDigits (k m : Nat) : List Nat := bijDigitsAux k m m

/-- Modelled from the spec: the Hint Allocator labelling (the
implementation is not part of this repository).  The `n`-th label in
the canonical enumeration over the alphabet ordered by length then
lexicographically: single characters first, then two-character
combinations, and so on. -/
def labelFor (alph : List Char) (n : Nat) : List Char :=
  (bijDigits alph.length (n + 1)).map (fun d => alph.getD d ' ')

/-- Values of the list not yet in `seen`, kept in order of first
appearance and added to `seen` as they are met. -/
def dedupSeen (seen : List (List String)) : List (List String) → List (List String)
  | [] => []
  | t :: ts => if t ∈ seen then dedupSeen seen ts else t :: dedupSeen (t :: seen) ts

/-- Distinct values of a list of matched texts in first-appearance
order. -/
def dedupFirst (l : List (List String)) : List (List String) := dedupSeen [] l

/-- Index of the first occurrence of `x` in the list. -/
def firstIdx : List (List String) → List String → Nat
  | [], _ => 0
  | t :: ts, x => if x = t then 0 else firstIdx ts x + 1

/-- Modelled from the spec: the hint label of a match is keyed by its
matched text value — the label of the position of that text in the
first-appearance order of distinct matched texts. -/
def hintOf (alph : List Char) (ms : List Match) (m : Match) : List Char :=
  labelFor alph (firstIdx (dedupFirst (ms.map Match.text)) m.text)

/-- A mode: name, activation hotkey, matching rule (literal pattern),
hint style and highlight style. -/
structure Mode where
  name : String
  hotkey : Char
  pattern : List String
  hintStyle : Style
  highlightStyle : Style
deriving DecidableEq, Repr

/-- The resolved configuration: hint alphabet, modes, mode-switch key. -/
structure Config where
  hintChars : List Char
  modes : List Mode
  modeSwitchKey : Char
deriving DecidableEq, Repr

/-- The mode at index `i` (a placeholder mode out of bounds). -/
def Config.modeAt (cfg : Config) (i : Nat) : Mode :=
  cfg.modes.getD i ⟨"", ' ', [], Style.plain, Style.plain⟩

/-- Matches of the mode at index `a` over the plain-text lines. -/
def activeMatches (cfg : Config) (plains : List (List String)) (a : Nat) : List Match :=
  findMatches (cfg.modeAt a).pattern plains

/-- Distinct matched texts of the active mode, first-appearance order. -/
def distinctTexts (cfg : Config) (plains : List (List String)) (a : Nat) :
    List (List String) :=
  dedupFirst ((activeMatches cfg plains a).map Match.text)

/-- Interaction state: Normal/Hinting with the typed hint characters so
far, or the ModeSelect dialog. -/
inductive UiState where
  | normal (typed : List Char)
  | modeSelect
deriving DecidableEq, Repr

/-- Result of consuming one keystroke: keep interacting with a new
interaction state and active mode index, or emit a selected text and
terminate. -/
inductive StepResult where
  | cont (ui : UiState) (active : Nat)
  | emit (text : List String)
deriving DecidableEq, Repr

/-- Search labels `i, i+1, …, i+n-1` for one equal to `t`. -/
def exactLabelAux (alph : List Char) (t : List Char) : Nat → Nat → Option Nat
  | _, 0 => none
  | i, n + 1 => if labelFor alph i = t then some i else exactLabelAux alph t (i + 1) n

/-- Index of the label among the first `count` labels equal to `t`. -/
def exactLabel (alph : List Char) (count : Nat) (t : List Char) : Option Nat :=
  exactLabelAux alph t 0 count

/-- Search labels `i, i+1, …, i+n-1` for one that strictly extends
`t`. -/
def extendsLabelAux (alph : List Char) (t : List Char) : Nat → Nat → Bool
  | _, 0 => false
  | i, n + 1 =>
    (decide (t ≠ labelFor alph i) && leadsL t (labelFor alph i))
      || extendsLabelAux alph t (i + 1) n

/-- Whether `t` is a strict initial segment of one of the first `count`
labels. -/
def extendsSomeLabel (alph : List Char) (count : Nat) (t : List Char) : Bool :=
  extendsLabelAux alph t 0 count

/-- Modelled from the spec: the Interaction State Machine transition on
one keystroke (the implementation is not part of this repository).
In ModeSelect, a mode hotkey activates that mode and resets the typed
hint characters, any other key is ignored.  In Normal, the mode-switch
key opens ModeSelect; otherwise the key extends the typed hint
characters: an exact label emits its matched text, a strict initial
segment of some label keeps waiting, and anything else resets the typed
characters. -/
def step (cfg : Config) (plains : List (List String)) (a : Nat) :
    UiState → Char → StepResult
  | UiState.modeSelect, k =>
    match cfg.modes.findIdx? (fun m => m.hotkey == k) with
    | some j => StepResult.cont (UiState.normal []) j
    | none => StepResult.cont UiState.modeSelect a
  | UiState.normal typed, k =>
    if k = cfg.modeSwitchKey then
      StepResult.cont UiState.modeSelect a
    else
      let t := typed ++ [k]
      let ds := distinctTexts cfg plains a
      match exactLabel cfg.hintChars ds.length t with
      | some i => StepResult.emit (ds.getD i [])
      | none =>
        if extendsSomeLabel cfg.hintChars ds.length t then
          StepResult.cont (UiState.normal t) a
        else
          StepResult.cont (UiState.normal []) a

/-- Run the state machine over a keystroke sequence; `some t` when a
selection with matched text `t` is emitted, `none` when the keystrokes
are exhausted with the process still interacting. -/
def runKeys (cfg : Config) (plains : List (List String)) :
    UiState → Nat → List Char → Option (List String)
  | _, _, [] => none
  | ui, a, k :: ks =>
    match step cfg plains a ui k with
    | StepResult.emit t => some t
    | StepResult.cont ui2 a2 => runKeys cfg plains ui2 a2 ks

/-- Observable outcome of a finished process: exit status, standard
output and standard error. -/
structure Outcome where
  status : Nat
  stdout : String
  stderr : String
deriving DecidableEq, Repr

/-- Concatenation of the grapheme clusters of a matched text. -/
def textJoin (t : List String) : String := String.join t

/-- How the configuration was obtained: a file that could not be
opened, a file that could not be parsed, or a valid configuration. -/
inductive ConfigInput where
  | unopenable (path : String)
  | unparsable (path : String) (err : String)
  | valid (cfg : Config)

/-- Modelled from the spec: configuration loading (the implementation is
not part of this repository).  A config file that cannot be opened or
parsed is fatal before interaction starts: error status 255, nothing on
standard output, and a diagnostic on standard error. -/
def loadConfig : ConfigInput → Except Outcome Config
  | ConfigInput.unopenable p =>
    Except.error ⟨255, "", "Could not open config file " ++ p⟩
  | ConfigInput.unparsable p e =>
    Except.error ⟨255, "", "Could not parse config file " ++ p ++ ": " ++ e⟩
  | ConfigInput.valid cfg => Except.ok cfg

/-- Modelled from the spec: a successful selection writes exactly the
matched plain text followed by one newline to standard output and exits
with success status. -/
def interactOutcome (cfg : Config) (toks : List Token) (keys : List Char) :
    Option Outcome :=
  (runKeys cfg ((decode toks).map plainOf) (UiState.normal []) 0 keys).map
    (fun t => ⟨0, textJoin t ++ "\n", ""⟩)

/-- Whole-process model: load the configuration, then interact; a
loading failure refuses to begin interaction. -/
def runApp (ci : ConfigInput) (toks : List Token) (keys : List Char) :
    Option Outcome :=
  match loadConfig ci with
  | Except.error o => some o
  | Except.ok cfg => interactOutcome cfg toks keys

/-- Modelled from the spec: the default configuration text printed by
the out-of-scope `--show-default-config` entry point, reconstructed
from the spec and the observable assertions of the test suite. -/
def defaultConfigText : String :=
  "# Characters used to build the hint labels, in order of usage\n" ++
  "hint_characters: qwertyuiopasdfghjklzxcvbnm\n" ++
  "\n" ++
  "# Key that opens the mode selection dialog\n" ++
  "mode_switch_key: space\n" ++
  "\n" ++
  "# The selection modes\n" ++
  "modes:\n" ++
  "  # Select space separated tokens\n" ++
  "  - name: words\n" ++
  "    hotkey: w\n" ++
  "    regex: \\S+\n"

/-- Modelled from the spec: running with `--show-default-config` prints
the default configuration and exits successfully without interacting. -/
def showDefaultConfigOutcome : Outcome := ⟨0, defaultConfigText, ""⟩

/-- Whether the span of match `m` on line `li` covers cell column `j`. -/
def spanCoverP (li j : Nat) (m : Match) : Bool :=
  m.line == li && decide (m.col ≤ j) && decide (j < m.col + m.text.length)

/-- Whether some match span of line `li` covers cell column `j`. -/
def inSpan (ms : List Match) (li j : Nat) : Bool :=
  ms.any (spanCoverP li j)

/-- Whether the hint glyph of match `m` covers cell `(li, j)`: a hint
label occupies the first cells of its match span (never reaching past
the span). -/
def hintCoverP (alph : List Char) (ms : List Match) (li j : Nat) (m : Match) : Bool :=
  m.line == li && decide (m.col ≤ j) &&
    decide (j < m.col + min (hintOf alph ms m).length m.text.length)

/-- Hint glyph covering cell `(li, j)`, if any. -/
def hintCellAt (alph : List Char) (ms : List Match) (li j : Nat) : Option Char :=
  match ms.find? (hintCoverP alph ms li j) with
  | some m => some ((hintOf alph ms m).getD (j - m.col) ' ')
  | none => none

/-- Modelled from the spec: draw-time composition of one cell — the
hint glyph in the hint style where a hint covers the cell, the original
glyph in the highlight style elsewhere inside a match span, and the
cell exactly as decoded outside every span.  The underlying cell is
never mutated. -/
def composeCell (mode : Mode) (alph : List Char) (ms : List Match)
    (li j : Nat) (c : Cell) : Cell :=
  match hintCellAt alph ms li j with
  | some ch => ⟨String.singleton ch, 1, mode.hintStyle⟩
  | none =>
    if inSpan ms li j then ⟨c.cluster, c.width, mode.highlightStyle⟩ else c

/-- Compose the overlay over the cells of one line, starting at cell
column `j`. -/
def composeLineFrom (mode : Mode) (alph : List Char) (ms : List Match)
    (li : Nat) : Nat → Line → Line
  | _, [] => []
  | j, c :: cs =>
    composeCell mode alph ms li j c :: composeLineFrom mode alph ms li (j + 1) cs

/-- Compose the overlay over one whole line. -/
def composeLine (mode : Mode) (alph : List Char) (ms : List Match)
    (li : Nat) (l : Line) : Line :=
  composeLineFrom mode alph ms li 0 l

/-- Compose the overlay over every line, starting at line index `i`. -/
def composeLines (mode : Mode) (alph : List Char) (ms : List Match) :
    Nat → List Line → List Line
  | _, [] => []
  | i, l :: ls =>
    composeLine mode alph ms i l :: composeLines mode alph ms (i + 1) ls

/-- Pad a line with blank cells up to width `w`. -/
def padTo (w : Nat) (l : Line) : Line :=
  l ++ List.replicate (w - l.length) blankCell

/-- Chop a line into terminal rows with explicit fuel (`fuel` at least
the cell count suffices when `0 < w`). -/
def chunkPadAux (w : Nat) : Nat → Line → List Line
  | 0, l => [padTo w l]
  | fuel + 1, l =>
    if l.length ≤ w then [padTo w l] else l.take w :: chunkPadAux w fuel (l.drop w)

/-- Modelled from the spec: a line longer than the terminal width is
never wrapped within a row; it continues on the following terminal
rows in full-width chunks, the final partial row padded with blanks. -/
def chunkPad (w : Nat) (l : Line) : List Line :=
  if w = 0 then [] else chunkPadAux w l.length l

/-- Terminal rows of consecutive lines: each line starts on the row
after the last row of the previous line. -/
def layoutRows (w : Nat) : List Line → List Line
  | [] => []
  | l :: ls => chunkPad w l ++ layoutRows w ls

/-- A fully blank terminal row of width `w`. -/
def blankRow (w : Nat) : Line := List.replicate w blankCell

/-- Modelled from the spec: the first rendered frame — overlays
composed at draw time, lines laid out in full-width chunks, the first
page top-aligned at the first line, exactly `rows` rows. -/
def renderFrame (cfg : Config) (a : Nat) (lines : List Line)
    (rows cols : Nat) : List Line :=
  let mode := cfg.modeAt a
  let ms := activeMatches cfg (lines.map plainOf) a
  let composed := composeLines mode cfg.hintChars ms 0 lines
  let rws := layoutRows cols composed
  rws.take rows ++ List.replicate (rows - rws.length) (blankRow cols)

/-- Style state after consuming a token segment. -/
def stAfter (st : Style) : List Token → Style
  | [] => st
  | Token.g _ _ :: ts => stAfter st ts
  | Token.nl :: ts => stAfter st ts
  | Token.sgr s :: ts => stAfter (applySgr st s) ts

/-- Cells of a newline-free token segment accumulated (reversed) onto
`cur`, threading the style state. -/
def accCells (st : Style) (cur : Line) : List Token → Line
  | [] => cur
  | Token.g c w :: ts => accCells st (⟨c, w, st⟩ :: cur) ts
  | Token.nl :: ts => accCells st cur ts
  | Token.sgr s :: ts => accCells (applySgr st s) cur ts

/-- Split a character list at newline characters. -/
def splitLines : List Char → List (List Char)
  | [] => [[]]
  | c :: rest =>
    if c = '\n' then [] :: splitLines rest
    else
      match splitLines rest with
      | [] => [[c]]
      | l :: ls => (c :: l) :: ls

/-- Whether a line consists of optional spaces, then a `#`, then at
least one further character — a documentation comment line. -/
def isCommentLine (l : List Char) : Bool :=
  match l.dropWhile (fun c => c == ' ') with
  | '#' :: _ :: _ => true
  | _ => false

/-- A hint style with a non-default background, as the tests require. -/
def hintStyleW : Style := ⟨Color.other 16, Color.other 226, false⟩

/-- A highlight style distinct from the data styles of the tests. -/
def highlightStyleW : Style := ⟨Color.other 15, Color.other 28, false⟩

/-- The literal pattern matching the word `test`. -/
def patTest : List String := ["t", "e", "s", "t"]

/-- A configuration with one mode matching the literal `test`. -/
def cfgW : Config :=
  ⟨['q', 'w'], [⟨"test", 't', patTest, hintStyleW, highlightStyleW⟩], ' '⟩

/-- Tokens of the colored input `test, test indeed` of the tests: the
first word is rendered red, the rest unstyled. -/
def toksW : List Token :=
  [Token.sgr (Sgr.setFg Color.red),
   Token.g "t" 1, Token.g "e" 1, Token.g "s" 1, Token.g "t" 1, Token.g "," 1,
   Token.sgr Sgr.reset,
   Token.g " " 1, Token.g "t" 1, Token.g "e" 1, Token.g "s" 1, Token.g "t" 1,
   Token.g " " 1, Token.g "i" 1, Token.g "n" 1, Token.g "d" 1, Token.g "e" 1,
   Token.g "e" 1, Token.g "d" 1]

/-- Tokens of `test and test and more test`. -/
def toksMulti : List Token :=
  [Token.g "t" 1, Token.g "e" 1, Token.g "s" 1, Token.g "t" 1, Token.g " " 1,
   Token.g "a" 1, Token.g "n" 1, Token.g "d" 1, Token.g " " 1,
   Token.g "t" 1, Token.g "e" 1, Token.g "s" 1, Token.g "t" 1, Token.g " " 1,
   Token.g "a" 1, Token.g "n" 1, Token.g "d" 1, Token.g " " 1,
   Token.g "m" 1, Token.g "o" 1, Token.g "r" 1, Token.g "e" 1, Token.g " " 1,
   Token.g "t" 1, Token.g "e" 1, Token.g "s" 1, Token.g "t" 1]

/-- Tokens of `things stuff test stuff things` with the middle span
`stuff test stuff` bold, as in the style tests. -/
def toksStyled : List Token :=
  [Token.g "t" 1, Token.g "h" 1, Token.g "i" 1, Token.g "n" 1, Token.g "g" 1,
   Token.g "s" 1, Token.g " " 1,
   Token.sgr Sgr.setBold,
   Token.g "s" 1, Token.g "t" 1, Token.g "u" 1, Token.g "f" 1, Token.g "f" 1,
   Token.g " " 1,
   Token.g "t" 1, Token.g "e" 1, Token.g "s" 1, Token.g "t" 1,
   Token.g " " 1,
   Token.g "s" 1, Token.g "t" 1, Token.g "u" 1, Token.g "f" 1, Token.g "f" 1,
   Token.sgr Sgr.reset,
   Token.g " " 1, Token.g "t" 1, Token.g "h" 1, Token.g "i" 1, Token.g "n" 1,
   Token.g "g" 1, Token.g "s" 1]

/-- A configuration with two modes `aaa` and `bbb` on hotkeys `a` and
`b`, as in the mode-switching tests. -/
def cfgAB : Config :=
  ⟨['q', 'w'],
   [⟨"aaa", 'a', ["a", "a", "a"], hintStyleW, highlightStyleW⟩,
    ⟨"bbb", 'b', ["b", "b", "b"], hintStyleW, highlightStyleW⟩],
   ' '⟩

/-- Plain-text lines of the input `aaa bbb`. -/
def plainsAB : List (List String) := [["a", "a", "a", " ", "b", "b", "b"]]

/-- Tokens of the two-line input `ab` then `c`: the first line is wider
than a one-column terminal. -/
def toksC3 : List Token :=
  [Token.g "a" 1, Token.g "b" 1, Token.nl, Token.g "c" 1]

/-- Tokens of the eight-line input `1` … `8` of the first-page test. -/
def toks18 : List Token :=
  [Token.g "1" 1, Token.nl, Token.g "2" 1, Token.nl, Token.g "3" 1, Token.nl,
   Token.g "4" 1, Token.nl, Token.g "5" 1, Token.nl, Token.g "6" 1, Token.nl,
   Token.g "7" 1, Token.nl, Token.g "8" 1]

/-- An unstyled cell holding a one-character cluster. -/
def cellOf (s : String) : Cell := ⟨s, 1, Style.plain⟩

/-- The fifteen-cell line `123456789012345` of the long-line test. -/
def lineLong : Line :=
  [cellOf "1", cellOf "2", cellOf "3", cellOf "4", cellOf "5",
   cellOf "6", cellOf "7", cellOf "8", cellOf "9", cellOf "0",
   cellOf "1", cellOf "2", cellOf "3", cellOf "4", cellOf "5"]

/-- The ten newline-terminated one-digit segments `0` … `9`. -/
def segs09 : List (List Token) :=
  [[Token.g "0" 1], [Token.g "1" 1], [Token.g "2" 1], [Token.g "3" 1],
   [Token.g "4" 1], [Token.g "5" 1], [Token.g "6" 1], [Token.g "7" 1],
   [Token.g "8" 1], [Token.g "9" 1]]

/-! Helper lemmas. -/

theorem leadsL_append {α : Type} [DecidableEq α] :
    ∀ xs ys : List α, leadsL xs (xs ++ ys) = true := by
  intro xs ys
  induction xs with
  | nil => rfl
  | cons a as ih => simp [leadsL, ih]

theorem getD_append_left {α : Type} :
    ∀ (l1 l2 : List α) (i : Nat) (d : α), i < l1.length →
      (l1 ++ l2).getD i d = l1.getD i d := by
  intro l1
  induction l1 with
  | nil => intro l2 i d h; simp at h
  | cons a as ih =>
    intro l2 i d h
    cases i with
    | zero => rfl
    | succ j =>
      simp only [List.cons_append, List.getD_cons_succ]
      exact ih l2 j d (by simpa using h)

theorem getD_take {α : Type} :
    ∀ (l : List α) (n i : Nat) (d : α), i < n →
      (l.take n).getD i d = l.getD i d := by
  intro l
  induction l with
  | nil => intro n i d _; simp
  | cons a as ih =>
    intro n i d h
    cases n with
    | zero => omega
    | succ m =>
      cases i with
      | zero => rfl
      | succ j =>
        simp only [List.take_succ_cons, List.getD_cons_succ]
        exact ih m j d (by omega)

theorem decodeAux_plain_stripSgr :
    ∀ (ts : List Token) (st st2 : Style) (cur cur2 : Line),
      cur.map Cell.cluster = cur2.map Cell.cluster →
      (decodeAux (stripSgr ts) st2 cur2).map plainOf =
        (decodeAux ts st cur).map plainOf := by
  intro ts
  induction ts with
  | nil =>
    intro st st2 cur cur2 h
    have hlen : cur.length = cur2.length := by
      have := congrArg List.length h; simpa using this
    simp only [stripSgr, decodeAux]
    cases cur with
    | nil => cases cur2 with
      | nil => rfl
      | cons b bs => simp at hlen
    | cons a as =>
      cases cur2 with
      | nil => simp at hlen
      | cons b bs =>
        simp only [List.isEmpty_cons, if_neg Bool.false_ne_true, List.map_cons]
        unfold plainOf
        simp only [List.map_reverse, h]
  | cons t ts ih =>
    intro st st2 cur cur2 h
    cases t with
    | g c w =>
      simp only [stripSgr, decodeAux]
      exact ih st st2 _ _ (by simp [h])
    | nl =>
      simp only [stripSgr, decodeAux, List.map_cons]
      have hh : plainOf cur2.reverse = plainOf cur.reverse := by
        unfold plainOf
        simp only [List.map_reverse, h]
      rw [hh]
      exact congrArg _ (ih st st2 [] [] rfl)
    | sgr s =>
      simp only [stripSgr, decodeAux]
      exact ih (applySgr st s) st2 cur cur2 h

theorem decode_plain_stripSgr (ts : List Token) :
    (decode (stripSgr ts)).map plainOf = (decode ts).map plainOf :=
  decodeAux_plain_stripSgr ts Style.plain Style.plain [] [] rfl

theorem decodeAux_plain_mapWidths (f : Nat → Nat) :
    ∀ (ts : List Token) (st : Style) (cur cur2 : Line),
      cur.map Cell.cluster = cur2.map Cell.cluster →
      (decodeAux (mapWidths f ts) st cur2).map plainOf =
        (decodeAux ts st cur).map plainOf := by
  intro ts
  induction ts with
  | nil =>
    intro st cur cur2 h
    have hlen : cur.length = cur2.length := by
      have := congrArg List.length h; simpa using this
    simp only [mapWidths, decodeAux]
    cases cur with
    | nil => cases cur2 with
      | nil => rfl
      | cons b bs => simp at hlen
    | cons a as =>
      cases cur2 with
      | nil => simp at hlen
      | cons b bs =>
        simp only [List.isEmpty_cons, if_neg Bool.false_ne_true, List.map_cons]
        unfold plainOf
        simp only [List.map_reverse, h]
  | cons t ts ih =>
    intro st cur cur2 h
    cases t with
    | g c w =>
      simp only [mapWidths, decodeAux]
      exact ih st _ _ (by simp [h])
    | nl =>
      simp only [mapWidths, decodeAux, List.map_cons]
      have hh : plainOf cur2.reverse = plainOf cur.reverse := by
        unfold plainOf
        simp only [List.map_reverse, h]
      rw [hh]
      exact congrArg _ (ih st [] [] rfl)
    | sgr s =>
      simp only [mapWidths, decodeAux]
      exact ih (applySgr st s) cur cur2 h

theorem decode_plain_mapWidths (f : Nat → Nat) (ts : List Token) :
    (decode (mapWidths f ts)).map plainOf = (decode ts).map plainOf :=
  decodeAux_plain_mapWidths f ts Style.plain [] [] rfl

theorem bijDigits_ne_nil (k m : Nat) (hk : k ≠ 0) (hm : m ≠ 0) :
    bijDigits k m ≠ [] := by
  cases m with
  | zero => exact absurd rfl hm
  | succ n => simp [bijDigits, bijDigitsAux, hk]

theorem labelFor_ne_nil (alph : List Char) (n : Nat) (h : alph ≠ []) :
    labelFor alph n ≠ [] := by
  unfold labelFor
  have hk : alph.length ≠ 0 := fun h0 => h (List.length_eq_zero.mp h0)
  have := bijDigits_ne_nil alph.length (n + 1) hk (Nat.succ_ne_zero n)
  simp [this]

theorem exactLabelAux_eq_none (alph : List Char) (t : List Char) :
    ∀ (n i : Nat), (∀ j, i ≤ j → j < i + n → labelFor alph j ≠ t) →
      exactLabelAux alph t i n = none := by
  intro n
  induction n with
  | zero => intro i _; rfl
  | succ m ih =>
    intro i h
    unfold exactLabelAux
    rw [if_neg (h i (Nat.le_refl i) (by omega))]
    exact ih (i + 1) (fun j hj1 hj2 => h j (by omega) (by omega))

theorem exactLabelAux_eq_first (alph : List Char) (t : List Char) :
    ∀ (n i m : Nat), i ≤ m → m < i + n → labelFor alph m = t →
      (∀ j, i ≤ j → j < m → labelFor alph j ≠ t) →
      exactLabelAux alph t i n = some m := by
  intro n
  induction n with
  | zero => intro i m h1 h2 _ _; omega
  | succ nn ih =>
    intro i m h1 h2 hm hfirst
    unfold exactLabelAux
    by_cases hcase : labelFor alph i = t
    · rw [if_pos hcase]
      have : i = m := by
        by_contra hne
        exact hfirst i (Nat.le_refl i) (by omega) hcase
      rw [this]
    · rw [if_neg hcase]
      have him : i ≠ m := fun he => hcase (he ▸ hm)
      exact ih (i + 1) m (by omega) (by omega) hm
        (fun j hj1 hj2 => hfirst j (by omega) hj2)

theorem extendsLabelAux_true (alph : List Char) (t : List Char) :
    ∀ (n i j : Nat), i ≤ j → j < i + n → t ≠ labelFor alph j →
      leadsL t (labelFor alph j) = true → extendsLabelAux alph t i n = true := by
  intro n
  induction n with
  | zero => intro i j h1 h2 _ _; omega
  | succ m ih =>
    intro i j h1 h2 hne hle
    unfold extendsLabelAux
    by_cases hij : i = j
    · subst hij
      simp [hne, hle]
    · have := ih (i + 1) j (by omega) (by omega) hne hle
      simp [this]

theorem runKeys_label (cfg : Config) (plains : List (List String)) (a i : Nat)
    (hi : i < (distinctTexts cfg plains a).length)
    (huniq : ∀ j, j < (distinctTexts cfg plains a).length →
      labelFor cfg.hintChars j = labelFor cfg.hintChars i → j = i)
    (hnopre : ∀ j, j < (distinctTexts cfg plains a).length →
      leadsL (labelFor cfg.hintChars j) (labelFor cfg.hintChars i) = true →
      labelFor cfg.hintChars j = labelFor cfg.hintChars i)
    (hkey : ∀ c ∈ labelFor cfg.hintChars i, c ≠ cfg.modeSwitchKey) :
    ∀ (suf pre : List Char), labelFor cfg.hintChars i = pre ++ suf → suf ≠ [] →
      runKeys cfg plains (UiState.normal pre) a suf =
        some ((distinctTexts cfg plains a).getD i []) := by
  intro suf
  induction suf with
  | nil => intro pre _ hne; exact absurd rfl hne
  | cons k rest ih =>
    intro pre hsplit _
    have hkmem : k ∈ labelFor cfg.hintChars i := by
      rw [hsplit]; exact List.mem_append_right pre (List.mem_cons_self k rest)
    have hknot : ¬(k = cfg.modeSwitchKey) := hkey k hkmem
    cases rest with
    | nil =>
      have ht : pre ++ [k] = labelFor cfg.hintChars i := hsplit.symm
      have hfirst : ∀ j, 0 ≤ j → j < i → labelFor cfg.hintChars j ≠ pre ++ [k] := by
        intro j _ hj hlj
        have : j = i := huniq j (by omega) (by rw [hlj, ht])
        omega
      have hex : exactLabel cfg.hintChars (distinctTexts cfg plains a).length
          (pre ++ [k]) = some i :=
        exactLabelAux_eq_first cfg.hintChars (pre ++ [k])
          (distinctTexts cfg plains a).length 0 i (Nat.zero_le i) (by omega)
          ht.symm hfirst
      simp only [runKeys, step, if_neg hknot, hex]
    | cons k2 rest2 =>
      have hproper : ∀ j, j < (distinctTexts cfg plains a).length →
          labelFor cfg.hintChars j ≠ pre ++ [k] := by
        intro j hj hlj
        have hlead : leadsL (labelFor cfg.hintChars j)
            (labelFor cfg.hintChars i) = true := by
          rw [hlj, hsplit]
          have : pre ++ k :: k2 :: rest2 = (pre ++ [k]) ++ (k2 :: rest2) := by
            simp
          rw [this]
          exact leadsL_append _ _
        have heq := hnopre j hj hlead
        rw [hlj, hsplit] at heq
        have := congrArg List.length heq
        simp at this
      have hex : exactLabel cfg.hintChars (distinctTexts cfg plains a).length
          (pre ++ [k]) = none :=
        exactLabelAux_eq_none cfg.hintChars (pre ++ [k])
          (distinctTexts cfg plains a).length 0
          (fun j _ hj2 => hproper j (by omega))
      have hxt : extendsSomeLabel cfg.hintChars
          (distinctTexts cfg plains a).length (pre ++ [k]) = true := by
        apply extendsLabelAux_true cfg.hintChars (pre ++ [k])
          (distinctTexts cfg plains a).length 0 i (Nat.zero_le i) (by omega)
        · intro he
          have := congrArg List.length (he.trans hsplit)
          simp at this
        · rw [hsplit]
          have : pre ++ k :: k2 :: rest2 = (pre ++ [k]) ++ (k2 :: rest2) := by
            simp
          rw [this]
          exact leadsL_append _ _
      have hstep : step cfg plains a (UiState.normal pre) k =
          StepResult.cont (UiState.normal (pre ++ [k])) a := by
        simp only [step, if_neg hknot, hex, hxt, if_pos]
      simp only [runKeys, hstep]
      exact ih (pre ++ [k]) (by rw [hsplit]; simp) (by simp)

theorem find?_isSome_of_mem {α : Type} (p : α → Bool) :
    ∀ (l : List α) (x : α), x ∈ l → p x = true → (l.find? p).isSome = true := by
  intro l
  induction l with
  | nil => intro x hx _; cases hx
  | cons a as ih =>
    intro x hx hp
    by_cases hpa : p a = true
    · rw [List.find?_cons_of_pos _ hpa]; rfl
    · rw [List.find?_cons_of_neg _ (by simpa using hpa)]
      have hmem : x ∈ as := by
        cases hx with
        | head => exact absurd hp hpa
        | tail _ h => exact h
      exact ih x hmem hp

theorem find?_eq_none_of_all {α : Type} (p : α → Bool) :
    ∀ (l : List α), (∀ x ∈ l, p x = false) → l.find? p = none := by
  intro l
  induction l with
  | nil => intro _; rfl
  | cons a as ih =>
    intro h
    rw [List.find?_cons_of_neg _ (by simp [h a (List.mem_cons_self a as)])]
    exact ih (fun x hx => h x (List.mem_cons_of_mem a hx))

theorem composeLineFrom_getD (mode : Mode) (alph : List Char) (ms : List Match)
    (li : Nat) :
    ∀ (l : Line) (j0 j : Nat), j < l.length →
      (composeLineFrom mode alph ms li j0 l).getD j blankCell =
        composeCell mode alph ms li (j0 + j) (l.getD j blankCell) := by
  intro l
  induction l with
  | nil => intro j0 j h; simp at h
  | cons c cs ih =>
    intro j0 j h
    cases j with
    | zero => simp [composeLineFrom]
    | succ jj =>
      simp only [composeLineFrom, List.getD_cons_succ]
      rw [ih (j0 + 1) jj (by simpa using h)]
      have harith : j0 + 1 + jj = j0 + (jj + 1) := by omega
      rw [harith]

theorem composeCell_hint_of_cover (mode : Mode) (alph : List Char)
    (ms : List Match) (li j : Nat) (c : Cell) (m : Match) (hm : m ∈ ms)
    (hline : m.line = li) (hcol : m.col ≤ j)
    (hcov : j < m.col + min (hintOf alph ms m).length m.text.length) :
    (composeCell mode alph ms li j c).style = mode.hintStyle := by
  have hp : hintCoverP alph ms li j m = true := by
    simp [hintCoverP, hline, hcol, hcov]
  have hsome := find?_isSome_of_mem (hintCoverP alph ms li j) ms m hm hp
  obtain ⟨m2, hm2⟩ := Option.isSome_iff_exists.mp hsome
  unfold composeCell hintCellAt
  rw [hm2]

theorem composeCell_outside (mode : Mode) (alph : List Char) (ms : List Match)
    (li j : Nat) (c : Cell)
    (h : ∀ m ∈ ms, ¬(m.line = li ∧ m.col ≤ j ∧ j < m.col + m.text.length)) :
    composeCell mode alph ms li j c = c := by
  have hnone : ms.find? (hintCoverP alph ms li j) = none := by
    apply find?_eq_none_of_all
    intro m hm
    rw [Bool.eq_false_iff]
    intro htrue
    simp only [hintCoverP, Bool.and_eq_true, beq_iff_eq, decide_eq_true_eq] at htrue
    obtain ⟨⟨h1, h2⟩, h3⟩ := htrue
    have hmin := Nat.min_le_right (hintOf alph ms m).length m.text.length
    exact h m hm ⟨h1, h2, by omega⟩
  have hspan : inSpan ms li j = false := by
    rw [Bool.eq_false_iff]
    intro htrue
    simp only [inSpan, List.any_eq_true] at htrue
    obtain ⟨m, hm, hpm⟩ := htrue
    simp only [spanCoverP, Bool.and_eq_true, beq_iff_eq, decide_eq_true_eq] at hpm
    exact h m hm ⟨hpm.1.1, hpm.1.2, hpm.2⟩
  unfold composeCell hintCellAt
  rw [hnone, hspan]
  simp

theorem composeCell_highlight (mode : Mode) (alph : List Char) (ms : List Match)
    (li j : Nat) (c : Cell)
    (hin : inSpan ms li j = true)
    (hnohint : ∀ m ∈ ms,
      ¬(m.line = li ∧ m.col ≤ j ∧
        j < m.col + min (hintOf alph ms m).length m.text.length)) :
    composeCell mode alph ms li j c = ⟨c.cluster, c.width, mode.highlightStyle⟩ := by
  have hnone : ms.find? (hintCoverP alph ms li j) = none := by
    apply find?_eq_none_of_all
    intro m hm
    rw [Bool.eq_false_iff]
    intro htrue
    simp only [hintCoverP, Bool.and_eq_true, beq_iff_eq, decide_eq_true_eq] at htrue
    exact hnohint m hm ⟨htrue.1.1, htrue.1.2, htrue.2⟩
  unfold composeCell hintCellAt
  rw [hnone, hin]
  simp

/-! Claim theorems. -/

/-- C1: for every run in which the user types a hint label exactly
(the label of the `i`-th distinct matched text, with the spec's label
invariants: labels pairwise distinct, no assigned label a strict prefix
of the typed one, no label character equal to the mode-switch key),
the process writes to standard output exactly the matched plain text of
the chosen match followed by a single trailing newline and exits with
success status, and the result is unchanged when every SGR styling
escape is removed from the input. -/
theorem c1_typed_label_selects (cfg : Config) (toks : List Token) (i : Nat)
    (halph : cfg.hintChars ≠ [])
    (hi : i < (distinctTexts cfg ((decode toks).map plainOf) 0).length)
    (huniq : ∀ j, j < (distinctTexts cfg ((decode toks).map plainOf) 0).length →
      labelFor cfg.hintChars j = labelFor cfg.hintChars i → j = i)
    (hnopre : ∀ j, j < (distinctTexts cfg ((decode toks).map plainOf) 0).length →
      leadsL (labelFor cfg.hintChars j) (labelFor cfg.hintChars i) = true →
      labelFor cfg.hintChars j = labelFor cfg.hintChars i)
    (hkey : ∀ c ∈ labelFor cfg.hintChars i, c ≠ cfg.modeSwitchKey) :
    runApp (ConfigInput.valid cfg) toks (labelFor cfg.hintChars i) =
      some ⟨0, textJoin
        ((distinctTexts cfg ((decode toks).map plainOf) 0).getD i []) ++ "\n", ""⟩
    ∧ runApp (ConfigInput.valid cfg) (stripSgr toks) (labelFor cfg.hintChars i) =
      some ⟨0, textJoin
        ((distinctTexts cfg ((decode toks).map plainOf) 0).getD i []) ++ "\n", ""⟩ := by
  have hrun : runKeys cfg ((decode toks).map plainOf) (UiState.normal []) 0
      (labelFor cfg.hintChars i) =
      some ((distinctTexts cfg ((decode toks).map plainOf) 0).getD i []) :=
    runKeys_label cfg ((decode toks).map plainOf) 0 i hi huniq hnopre hkey
      (labelFor cfg.hintChars i) [] (by simp) (labelFor_ne_nil cfg.hintChars i halph)
  constructor
  · simp only [runApp, loadConfig, interactOutcome, hrun, Option.map_some']
  · simp only [runApp, loadConfig, interactOutcome, decode_plain_stripSgr, hrun,
      Option.map_some']

theorem c1_witness :
    runApp (ConfigInput.valid cfgW) toksW (labelFor cfgW.hintChars 0) =
      some ⟨0, textJoin
        ((distinctTexts cfgW ((decode toksW).map plainOf) 0).getD 0 []) ++ "\n", ""⟩
    ∧ runApp (ConfigInput.valid cfgW) (stripSgr toksW) (labelFor cfgW.hintChars 0) =
      some ⟨0, textJoin
        ((distinctTexts cfgW ((decode toksW).map plainOf) 0).getD 0 []) ++ "\n", ""⟩ :=
  c1_typed_label_selects cfgW toksW 0 (by decide) (by decide) (by decide)
    (by decide) (by decide)

/-- C2: within one active mode, label assignment is a function of the
matched text value — two matches with equal matched text always carry
the identical hint label — and at the starting cell of each occurrence
the rendered cell takes the hint style, whose background is
non-default. -/
theorem c2_equal_text_equal_hint (mode : Mode) (alph : List Char)
    (ms : List Match) (halph : alph ≠ [])
    (hbg : mode.hintStyle.bg ≠ Color.default) :
    (∀ m1 m2, m1 ∈ ms → m2 ∈ ms → m1.text = m2.text →
      hintOf alph ms m1 = hintOf alph ms m2)
    ∧ (∀ m l, m ∈ ms → m.text ≠ [] → m.col < l.length →
      ((composeLine mode alph ms m.line l).getD m.col blankCell).style =
          mode.hintStyle
      ∧ ((composeLine mode alph ms m.line l).getD m.col blankCell).style.bg ≠
          Color.default) := by
  constructor
  · intro m1 m2 _ _ htext
    unfold hintOf
    rw [htext]
  · intro m l hm htext hcol
    have hlen : (composeLine mode alph ms m.line l).getD m.col blankCell =
        composeCell mode alph ms m.line m.col (l.getD m.col blankCell) := by
      have := composeLineFrom_getD mode alph ms m.line l 0 m.col hcol
      simpa [composeLine] using this
    have hhintlen : 0 < (hintOf alph ms m).length :=
      List.length_pos.mpr (labelFor_ne_nil alph _ halph)
    have htextlen : 0 < m.text.length := List.length_pos.mpr htext
    have hsty : (composeCell mode alph ms m.line m.col
        (l.getD m.col blankCell)).style = mode.hintStyle := by
      apply composeCell_hint_of_cover mode alph ms m.line m.col _ m hm rfl
        (Nat.le_refl _)
      have : 0 < min (hintOf alph ms m).length m.text.length :=
        lt_min hhintlen htextlen
      omega
    rw [hlen, hsty]
    exact ⟨rfl, hbg⟩

theorem c2_witness :
    hintOf cfgW.hintChars (activeMatches cfgW ((decode toksMulti).map plainOf) 0)
        ⟨0, 0, patTest⟩ =
      hintOf cfgW.hintChars (activeMatches cfgW ((decode toksMulti).map plainOf) 0)
        ⟨0, 9, patTest⟩
    ∧ ((composeLine (cfgW.modeAt 0) cfgW.hintChars
        (activeMatches cfgW ((decode toksMulti).map plainOf) 0) 0
        ((decode toksMulti).getD 0 [])).getD 23 blankCell).style =
      (cfgW.modeAt 0).hintStyle
    ∧ ((composeLine (cfgW.modeAt 0) cfgW.hintChars
        (activeMatches cfgW ((decode toksMulti).map plainOf) 0) 0
        ((decode toksMulti).getD 0 [])).getD 23 blankCell).style.bg ≠
      Color.default :=
  ⟨(c2_equal_text_equal_hint (cfgW.modeAt 0) cfgW.hintChars
      (activeMatches cfgW ((decode toksMulti).map plainOf) 0) (by decide)
      (by decide)).1 ⟨0, 0, patTest⟩ ⟨0, 9, patTest⟩ (by decide) (by decide) rfl,
   ((c2_equal_text_equal_hint (cfgW.modeAt 0) cfgW.hintChars
      (activeMatches cfgW ((decode toksMulti).map plainOf) 0) (by decide)
      (by decide)).2 ⟨0, 23, patTest⟩ ((decode toksMulti).getD 0 [])
      (by decide) (by decide) (by decide)).1,
   ((c2_equal_text_equal_hint (cfgW.modeAt 0) cfgW.hintChars
      (activeMatches cfgW ((decode toksMulti).map plainOf) 0) (by decide)
      (by decide)).2 ⟨0, 23, patTest⟩ ((decode toksMulti).getD 0 [])
      (by decide) (by decide) (by decide)).2⟩

/-- C4: rendering a highlight leaves every cell outside the highlighted
span exactly as decoded (style, colors and glyph unchanged), while a
cell inside the span that is not under a hint glyph takes the mode's
highlight style — keeping its glyph and width but not inheriting the
underlying data's style or colors. -/
theorem c4_highlight_no_bleed (mode : Mode) (alph : List Char)
    (ms : List Match) (li : Nat) :
    (∀ j c, (∀ m ∈ ms, ¬(m.line = li ∧ m.col ≤ j ∧ j < m.col + m.text.length)) →
      composeCell mode alph ms li j c = c)
    ∧ (∀ j c, inSpan ms li j = true →
      (∀ m ∈ ms, ¬(m.line = li ∧ m.col ≤ j ∧
        j < m.col + min (hintOf alph ms m).length m.text.length)) →
      composeCell mode alph ms li j c = ⟨c.cluster, c.width, mode.highlightStyle⟩) :=
  ⟨fun j c h => composeCell_outside mode alph ms li j c h,
   fun j c hin hnohint => composeCell_highlight mode alph ms li j c hin hnohint⟩

theorem c4_witness :
    composeCell (cfgW.modeAt 0) cfgW.hintChars
        (activeMatches cfgW ((decode toksStyled).map plainOf) 0) 0 12
        ⟨"f", 1, ⟨Color.default, Color.default, true⟩⟩ =
      ⟨"f", 1, ⟨Color.default, Color.default, true⟩⟩
    ∧ composeCell (cfgW.modeAt 0) cfgW.hintChars
        (activeMatches cfgW ((decode toksStyled).map plainOf) 0) 0 14
        ⟨"e", 1, ⟨Color.red, Color.blue, true⟩⟩ =
      ⟨"e", 1, (cfgW.modeAt 0).highlightStyle⟩ :=
  ⟨(c4_highlight_no_bleed (cfgW.modeAt 0) cfgW.hintChars
      (activeMatches cfgW ((decode toksStyled).map plainOf) 0) 0).1 12
      ⟨"f", 1, ⟨Color.default, Color.default, true⟩⟩ (by decide),
   (c4_highlight_no_bleed (cfgW.modeAt 0) cfgW.hintChars
      (activeMatches cfgW ((decode toksStyled).map plainOf) 0) 0).2 14
      ⟨"e", 1, ⟨Color.red, Color.blue, true⟩⟩ (by decide) (by decide)⟩

/-- C5: in the ModeSelect state a keystroke matching no configured mode
hotkey leaves the dialog open with nothing changed, while a keystroke
equal to the hotkey of mode `j` activates mode `j` (resetting the typed
hint characters), after which the matches and hints in force are those
recomputed for mode `j` and every cell outside the new mode's match
spans is rendered exactly as decoded — the previous mode's marks are
gone. -/
theorem c5_mode_select_transitions (cfg : Config)
    (plains : List (List String)) (a : Nat) (k : Char) :
    (cfg.modes.findIdx? (fun m => m.hotkey == k) = none →
      step cfg plains a UiState.modeSelect k =
        StepResult.cont UiState.modeSelect a)
    ∧ (∀ j, cfg.modes.findIdx? (fun m => m.hotkey == k) = some j →
      step cfg plains a UiState.modeSelect k =
        StepResult.cont (UiState.normal []) j
      ∧ activeMatches cfg plains j = findMatches (cfg.modeAt j).pattern plains
      ∧ ∀ li jj c, (∀ m ∈ activeMatches cfg plains j,
          ¬(m.line = li ∧ m.col ≤ jj ∧ jj < m.col + m.text.length)) →
        composeCell (cfg.modeAt j) cfg.hintChars (activeMatches cfg plains j)
          li jj c = c) := by
  constructor
  · intro hnone
    simp only [step, hnone]
  · intro j hsome
    refine ⟨by simp only [step, hsome], rfl, ?_⟩
    intro li jj c h
    exact composeCell_outside (cfg.modeAt j) cfg.hintChars
      (activeMatches cfg plains j) li jj c h

theorem c5_witness :
    step cfgAB plainsAB 0 UiState.modeSelect 'x' =
      StepResult.cont UiState.modeSelect 0
    ∧ step cfgAB plainsAB 0 UiState.modeSelect 'b' =
      StepResult.cont (UiState.normal []) 1
    ∧ activeMatches cfgAB plainsAB 1 =
      findMatches (cfgAB.modeAt 1).pattern plainsAB
    ∧ composeCell (cfgAB.modeAt 1) cfgAB.hintChars (activeMatches cfgAB plainsAB 1)
        0 0 (cellOf "a") = cellOf "a" :=
  ⟨(c5_mode_select_transitions cfgAB plainsAB 0 'x').1 (by decide),
   ((c5_mode_select_transitions cfgAB plainsAB 0 'b').2 1 (by decide)).1,
   ((c5_mode_select_transitions cfgAB plainsAB 0 'b').2 1 (by decide)).2.1,
   ((c5_mode_select_transitions cfgAB plainsAB 0 'b').2 1 (by decide)).2.2 0 0
     (cellOf "a") (by decide)⟩

theorem padTo_length (w : Nat) (l : Line) (h : l.length ≤ w) :
    (padTo w l).length = w := by
  simp [padTo]
  omega

theorem chunkPad_fit (w : Nat) (l : Line) (hw : 0 < w) (h : l.length ≤ w) :
    chunkPad w l = [padTo w l] := by
  unfold chunkPad
  rw [if_neg (by omega)]
  cases hfl : l.length with
  | zero => rfl
  | succ n =>
    unfold chunkPadAux
    rw [if_pos (by omega)]

theorem chunkPadAux_ne_nil (w : Nat) :
    ∀ (fuel : Nat) (l : Line), chunkPadAux w fuel l ≠ [] := by
  intro fuel l
  cases fuel with
  | zero => simp [chunkPadAux]
  | succ n =>
    unfold chunkPadAux
    by_cases h : l.length ≤ w
    · rw [if_pos h]; simp
    · rw [if_neg h]; simp

theorem chunkPad_length_pos (w : Nat) (l : Line) (hw : 0 < w) :
    0 < (chunkPad w l).length := by
  unfold chunkPad
  rw [if_neg (by omega)]
  exact List.length_pos.mpr (chunkPadAux_ne_nil w l.length l)

theorem layoutRows_length_ge (w : Nat) (hw : 0 < w) :
    ∀ cs : List Line, cs.length ≤ (layoutRows w cs).length := by
  intro cs
  induction cs with
  | nil => simp [layoutRows]
  | cons c cs ih =>
    simp only [layoutRows, List.length_append, List.length_cons]
    have := chunkPad_length_pos w c hw
    omega

theorem layout_getD_fit (w : Nat) (hw : 0 < w) :
    ∀ (cs : List Line) (rows i : Nat), rows ≤ cs.length →
      (∀ t, t < rows → (cs.getD t []).length ≤ w) → i < rows →
      (layoutRows w cs).getD i [] = padTo w (cs.getD i []) := by
  intro cs
  induction cs with
  | nil => intro rows i h1 _ h3; simp at h1; omega
  | cons c cs ih =>
    intro rows i h1 h2 h3
    have hfit0 : c.length ≤ w := by
      have := h2 0 (by omega)
      simpa using this
    simp only [layoutRows, chunkPad_fit w c hw hfit0, List.singleton_append]
    cases i with
    | zero => rfl
    | succ j =>
      simp only [List.getD_cons_succ]
      cases rows with
      | zero => omega
      | succ r =>
        exact ih r j (by simpa using h1)
          (fun t ht => by simpa using h2 (t + 1) (by omega)) (by omega)

theorem composeLineFrom_length (mode : Mode) (alph : List Char) (ms : List Match)
    (li : Nat) : ∀ (j0 : Nat) (l : Line),
      (composeLineFrom mode alph ms li j0 l).length = l.length := by
  intro j0 l
  induction l generalizing j0 with
  | nil => rfl
  | cons c cs ih => simp [composeLineFrom, ih]

theorem composeLines_length (mode : Mode) (alph : List Char) (ms : List Match) :
    ∀ (i0 : Nat) (ls : List Line),
      (composeLines mode alph ms i0 ls).length = ls.length := by
  intro i0 ls
  induction ls generalizing i0 with
  | nil => rfl
  | cons l ls ih => simp [composeLines, ih]

theorem composeLines_getD (mode : Mode) (alph : List Char) (ms : List Match) :
    ∀ (ls : List Line) (i0 i : Nat), i < ls.length →
      (composeLines mode alph ms i0 ls).getD i [] =
        composeLine mode alph ms (i0 + i) (ls.getD i []) := by
  intro ls
  induction ls with
  | nil => intro i0 i h; simp at h
  | cons l ls ih =>
    intro i0 i h
    cases i with
    | zero => rfl
    | succ j =>
      simp only [composeLines, List.getD_cons_succ]
      rw [ih (i0 + 1) j (by simpa using h)]
      have : i0 + 1 + j = i0 + (j + 1) := by omega
      rw [this]

theorem frameRow_fit (cfg : Config) (a : Nat) (lines : List Line)
    (rows cols i : Nat) (hc : 0 < cols) (hr : rows ≤ lines.length)
    (hfit : ∀ t, t < rows → (lines.getD t []).length ≤ cols) (hi : i < rows) :
    (renderFrame cfg a lines rows cols).getD i [] =
      padTo cols (composeLine (cfg.modeAt a) cfg.hintChars
        (activeMatches cfg (lines.map plainOf) a) i (lines.getD i [])) := by
  set mode := cfg.modeAt a with hmode
  set ms := activeMatches cfg (lines.map plainOf) a with hms
  set composed := composeLines mode cfg.hintChars ms 0 lines with hcomposed
  have hclen : composed.length = lines.length :=
    composeLines_length mode cfg.hintChars ms 0 lines
  have hcfit : ∀ t, t < rows → (composed.getD t []).length ≤ cols := by
    intro t ht
    rw [hcomposed, composeLines_getD mode cfg.hintChars ms lines 0 t (by omega)]
    simp only [Nat.zero_add, composeLine]
    rw [composeLineFrom_length]
    exact hfit t ht
  have hlay : (layoutRows cols composed).getD i [] =
      padTo cols (composed.getD i []) :=
    layout_getD_fit cols hc composed rows i (by omega) hcfit hi
  have hlaylen : rows ≤ (layoutRows cols composed).length := by
    have := layoutRows_length_ge cols hc composed
    omega
  simp only [renderFrame, ← hmode, ← hms, ← hcomposed]
  rw [getD_append_left _ _ i [] (by
    rw [List.length_take]
    omega)]
  rw [getD_take _ rows i [] hi, hlay,
    composeLines_getD mode cfg.hintChars ms lines 0 i (by omega)]
  simp

/-- C3 (amended): for every input whose line count is at least the
terminal row count, provided additionally that each of the first
`rows` lines fits within the terminal width (no line-continuation rows
among them), the initial frame is top-aligned with input line `i`
rendered (composed and padded) at terminal row `i`. -/
theorem c3_first_page_top_aligned (cfg : Config) (a : Nat) (lines : List Line)
    (rows cols i : Nat) (hc : 0 < cols) (hr : rows ≤ lines.length)
    (hfit : ∀ t, t < rows → (lines.getD t []).length ≤ cols) (hi : i < rows) :
    (renderFrame cfg a lines rows cols).getD i [] =
      padTo cols (composeLine (cfg.modeAt a) cfg.hintChars
        (activeMatches cfg (lines.map plainOf) a) i (lines.getD i [])) :=
  frameRow_fit cfg a lines rows cols i hc hr hfit hi

theorem c3_counterexample :
    2 ≤ (decode toksC3).length
    ∧ ((renderFrame cfgW 0 (decode toksC3) 2 1).getD 1 []).map Cell.cluster = ["b"]
    ∧ ((decode toksC3).getD 1 []).map Cell.cluster = ["c"]
    ∧ (renderFrame cfgW 0 (decode toksC3) 2 1).getD 1 [] ≠
      padTo 1 (composeLine (cfgW.modeAt 0) cfgW.hintChars
        (activeMatches cfgW ((decode toksC3).map plainOf) 0) 1
        ((decode toksC3).getD 1 [])) := by decide

theorem c3_witness :
    (renderFrame cfgW 0 (decode toks18) 5 10).getD 4 [] =
      padTo 10 (composeLine (cfgW.modeAt 0) cfgW.hintChars
        (activeMatches cfgW ((decode toks18).map plainOf) 0) 4
        ((decode toks18).getD 4 [])) :=
  c3_first_page_top_aligned cfgW 0 (decode toks18) 5 10 4 (by decide) (by decide)
    (by decide) (by decide)

theorem chunkPadAux_row_width (w : Nat) (hw : 0 < w) :
    ∀ (fuel : Nat) (l : Line), l.length ≤ fuel →
      ∀ r ∈ chunkPadAux w fuel l, r.length = w := by
  intro fuel
  induction fuel with
  | zero =>
    intro l hl r hr
    simp only [chunkPadAux, List.mem_singleton] at hr
    rw [hr]
    exact padTo_length w l (by omega)
  | succ n ih =>
    intro l hl r hr
    unfold chunkPadAux at hr
    by_cases hfit : l.length ≤ w
    · rw [if_pos hfit, List.mem_singleton] at hr
      rw [hr]
      exact padTo_length w l hfit
    · rw [if_neg hfit, List.mem_cons] at hr
      cases hr with
      | inl he =>
        rw [he, List.length_take]
        omega
      | inr hm =>
        exact ih (l.drop w) (by simp only [List.length_drop]; omega) r hm

theorem chunkPadAux_getD (w : Nat) (hw : 0 < w) :
    ∀ (fuel : Nat) (l : Line) (j : Nat), l.length ≤ fuel → j * w < l.length →
      (chunkPadAux w fuel l).getD j [] = padTo w ((l.drop (j * w)).take w) := by
  intro fuel
  induction fuel with
  | zero => intro l j hl hj; omega
  | succ n ih =>
    intro l j hl hj
    unfold chunkPadAux
    by_cases hfit : l.length ≤ w
    · rw [if_pos hfit]
      have hj0 : j = 0 := by
        by_contra hne
        have : 1 * w ≤ j * w := Nat.mul_le_mul_right w (by omega)
        omega
      subst hj0
      simp only [Nat.zero_mul, List.drop_zero, List.getD_cons_zero]
      rw [List.take_of_length_le hfit]
    · rw [if_neg hfit]
      cases j with
      | zero =>
        simp only [Nat.zero_mul, List.drop_zero, List.getD_cons_zero]
        have hlen : (l.take w).length = w := by
          rw [List.length_take]; omega
        simp [padTo, hlen]
      | succ jj =>
        simp only [List.getD_cons_succ]
        have hdl : (l.drop w).length = l.length - w := by
          simp [List.length_drop]
        have hmul : (jj + 1) * w = jj * w + w := Nat.succ_mul jj w
        rw [ih (l.drop w) jj (by omega) (by omega)]
        rw [List.drop_drop]
        have : w + jj * w = (jj + 1) * w := by omega
        rw [this]

theorem chunkPadAux_length (w : Nat) (hw : 0 < w) :
    ∀ (fuel : Nat) (l : Line), l.length ≤ fuel →
      (chunkPadAux w fuel l).length = max 1 ((l.length + w - 1) / w) := by
  intro fuel
  induction fuel with
  | zero =>
    intro l hl
    have hl0 : l.length = 0 := by omega
    simp only [chunkPadAux, List.length_singleton, hl0]
    have : (0 + w - 1) / w = 0 := Nat.div_eq_of_lt (by omega)
    omega
  | succ n ih =>
    intro l hl
    unfold chunkPadAux
    by_cases hfit : l.length ≤ w
    · rw [if_pos hfit]
      have hdiv : (l.length + w - 1) / w < 2 := by
        rw [Nat.div_lt_iff_lt_mul hw]
        omega
      simp only [List.length_singleton]
      omega
    · rw [if_neg hfit]
      simp only [List.length_cons]
      have hdl : (l.drop w).length = l.length - w := by
        simp [List.length_drop]
      rw [ih (l.drop w) (by omega), hdl]
      have hone : 1 ≤ (l.length - w + w - 1) / w := by
        rw [Nat.one_le_div_iff hw]
        omega
      have hsum : l.length + w - 1 = (l.length - w + w - 1) + w := by omega
      rw [hsum, Nat.add_div_right _ hw]
      omega

/-- C7: a line is never wrapped within a terminal row — it is laid out
as consecutive rows each showing the next `w` cells, the final partial
row padded with blanks to width `w`, occupying exactly
`max 1 (ceil (length / w))` rows, after which the following line
starts on the next terminal row. -/
theorem c7_long_lines_chunked (w : Nat) (hw : 0 < w) (l : Line) :
    (∀ r ∈ chunkPad w l, r.length = w)
    ∧ (∀ j, j * w < l.length →
        (chunkPad w l).getD j [] = padTo w ((l.drop (j * w)).take w))
    ∧ (chunkPad w l).length = max 1 ((l.length + w - 1) / w)
    ∧ ∀ ls, (layoutRows w (l :: ls)).drop (chunkPad w l).length = layoutRows w ls := by
  have hunfold : chunkPad w l = chunkPadAux w l.length l := by
    unfold chunkPad
    rw [if_neg (by omega)]
  refine ⟨?_, ?_, ?_, ?_⟩
  · rw [hunfold]
    exact chunkPadAux_row_width w hw l.length l (Nat.le_refl _)
  · intro j hj
    rw [hunfold]
    exact chunkPadAux_getD w hw l.length l j (Nat.le_refl _) hj
  · rw [hunfold]
    exact chunkPadAux_length w hw l.length l (Nat.le_refl _)
  · intro ls
    simp only [layoutRows]
    exact List.drop_left _ _

theorem c7_witness :
    ((chunkPad 10 lineLong).getD 0 []).length = 10
    ∧ (chunkPad 10 lineLong).getD 1 [] = padTo 10 ((lineLong.drop (1 * 10)).take 10)
    ∧ (chunkPad 10 lineLong).length = max 1 ((lineLong.length + 10 - 1) / 10)
    ∧ (layoutRows 10 (lineLong :: [[cellOf "a"]])).drop (chunkPad 10 lineLong).length =
      layoutRows 10 [[cellOf "a"]] :=
  ⟨(c7_long_lines_chunked 10 (by decide) lineLong).1 ((chunkPad 10 lineLong).getD 0 [])
      (by decide),
   (c7_long_lines_chunked 10 (by decide) lineLong).2.1 1 (by decide),
   (c7_long_lines_chunked 10 (by decide) lineLong).2.2.1,
   (c7_long_lines_chunked 10 (by decide) lineLong).2.2.2 [[cellOf "a"]]⟩

theorem decodeAux_seg :
    ∀ (s ts : List Token) (st : Style) (cur : Line), Token.nl ∉ s →
      decodeAux (s ++ ts) st cur = decodeAux ts (stAfter st s) (accCells st cur s) := by
  intro s
  induction s with
  | nil => intro ts st cur _; rfl
  | cons t s ih =>
    intro ts st cur hnl
    cases t with
    | g c w =>
      simp only [List.cons_append, decodeAux, stAfter, accCells]
      exact ih ts st (⟨c, w, st⟩ :: cur) (fun hm => hnl (List.mem_cons_of_mem _ hm))
    | nl => exact absurd (List.mem_cons_self _ _) hnl
    | sgr q =>
      simp only [List.cons_append, decodeAux, stAfter, accCells]
      exact ih ts (applySgr st q) cur (fun hm => hnl (List.mem_cons_of_mem _ hm))

theorem accCells_plain :
    ∀ (s : List Token) (st : Style) (cur : Line),
      (accCells st cur s).reverse.map Cell.cluster =
        cur.reverse.map Cell.cluster ++ toksPlain s := by
  intro s
  induction s with
  | nil => intro st cur; simp [accCells, toksPlain]
  | cons t s ih =>
    intro st cur
    cases t with
    | g c w =>
      simp only [accCells, toksPlain]
      rw [ih st (⟨c, w, st⟩ :: cur)]
      simp
    | nl =>
      simp only [accCells, toksPlain]
      exact ih st cur
    | sgr q =>
      simp only [accCells, toksPlain]
      exact ih (applySgr st q) cur

theorem decode_terminated_plain :
    ∀ (segs : List (List Token)) (st : Style), (∀ s ∈ segs, Token.nl ∉ s) →
      (decodeAux (joinTerminated segs) st []).map plainOf = segs.map toksPlain := by
  intro segs
  induction segs with
  | nil => intro st _; rfl
  | cons s ss ih =>
    intro st hnl
    simp only [joinTerminated]
    rw [decodeAux_seg s (Token.nl :: joinTerminated ss) st []
      (hnl s (List.mem_cons_self s ss))]
    simp only [decodeAux, List.map_cons]
    have h1 : plainOf (accCells st [] s).reverse = toksPlain s := by
      have := accCells_plain s st []
      simpa [plainOf] using this
    rw [h1, ih (stAfter st s) (fun q hq => hnl q (List.mem_cons_of_mem s hq))]

/-- C8: an input of `k` newline-terminated segments yields exactly `k`
lines whose plain texts are the segments' graphemes — the trailing
newline is a terminator and produces no trailing empty line — and,
when every line fits the terminal width, the input fits a `k`-row
terminal with each line `i` (the last included) rendered on terminal
row `i`. -/
theorem c8_trailing_newline_terminator (cfg : Config) (a : Nat)
    (segs : List (List Token)) (hnl : ∀ s ∈ segs, Token.nl ∉ s) :
    (decode (joinTerminated segs)).length = segs.length
    ∧ (decode (joinTerminated segs)).map plainOf = segs.map toksPlain
    ∧ ∀ cols, 0 < cols →
      (∀ t, t < segs.length →
        ((decode (joinTerminated segs)).getD t []).length ≤ cols) →
      ∀ i, i < segs.length →
      (renderFrame cfg a (decode (joinTerminated segs)) segs.length cols).getD i [] =
        padTo cols (composeLine (cfg.modeAt a) cfg.hintChars
          (activeMatches cfg ((decode (joinTerminated segs)).map plainOf) a) i
          ((decode (joinTerminated segs)).getD i [])) := by
  have hplain : (decode (joinTerminated segs)).map plainOf = segs.map toksPlain :=
    decode_terminated_plain segs Style.plain hnl
  have hlen : (decode (joinTerminated segs)).length = segs.length := by
    have := congrArg List.length hplain
    simpa using this
  refine ⟨hlen, hplain, ?_⟩
  intro cols hc hfit i hi
  exact frameRow_fit cfg a (decode (joinTerminated segs)) segs.length cols i hc
    (by omega) hfit hi

theorem c8_witness :
    (decode (joinTerminated segs09)).length = segs09.length
    ∧ (decode (joinTerminated segs09)).map plainOf = segs09.map toksPlain
    ∧ (renderFrame cfgW 0 (decode (joinTerminated segs09)) segs09.length 10).getD 9 [] =
      padTo 10 (composeLine (cfgW.modeAt 0) cfgW.hintChars
        (activeMatches cfgW ((decode (joinTerminated segs09)).map plainOf) 0) 9
        ((decode (joinTerminated segs09)).getD 9 [])) :=
  ⟨(c8_trailing_newline_terminator cfgW 0 segs09 (by decide)).1,
   (c8_trailing_newline_terminator cfgW 0 segs09 (by decide)).2.1,
   (c8_trailing_newline_terminator cfgW 0 segs09 (by decide)).2.2 10 (by decide)
     (by decide) 9 (by decide)⟩

/-- C6: every grapheme cluster of the input occupies exactly one
addressable cell position — each line has exactly one cell per
grapheme of its plain text, and the plain-text projection, the
computed matches and the whole interaction outcome (hence the text a
selection emits) are invariant under arbitrary reassignment of the
display widths of the graphemes, wide glyphs included. -/
theorem c6_grapheme_one_cell (f : Nat → Nat) (toks : List Token) :
    (decode (mapWidths f toks)).map plainOf = (decode toks).map plainOf
    ∧ (∀ li, ((decode toks).getD li []).length =
        (plainOf ((decode toks).getD li [])).length)
    ∧ (∀ cfg a, activeMatches cfg ((decode (mapWidths f toks)).map plainOf) a =
        activeMatches cfg ((decode toks).map plainOf) a)
    ∧ (∀ cfg keys, interactOutcome cfg (mapWidths f toks) keys =
        interactOutcome cfg toks keys) := by
  have hplain := decode_plain_mapWidths f toks
  refine ⟨hplain, ?_, ?_, ?_⟩
  · intro li
    simp [plainOf]
  · intro cfg a
    rw [hplain]
  · intro cfg keys
    simp only [interactOutcome, hplain]

/-- C9: a run whose config file cannot be opened, or cannot be parsed,
refuses to begin interaction regardless of the input and keystrokes:
it exits with status 255, writes nothing to standard output, and
writes to standard error a message starting with
`Could not open config file ` or `Could not parse config file`
respectively. -/
theorem c9_config_errors_fatal (p e : String) (toks : List Token)
    (keys : List Char) :
    (runApp (ConfigInput.unopenable p) toks keys =
        some ⟨255, "", "Could not open config file " ++ p⟩
      ∧ leadsStr "Could not open config file "
          ("Could not open config file " ++ p) = true)
    ∧ (runApp (ConfigInput.unparsable p e) toks keys =
        some ⟨255, "", "Could not parse config file " ++ p ++ ": " ++ e⟩
      ∧ leadsStr "Could not parse config file"
          ("Could not parse config file " ++ p ++ ": " ++ e) = true) := by
  refine ⟨⟨rfl, ?_⟩, ⟨rfl, ?_⟩⟩
  · unfold leadsStr
    rw [String.data_append]
    exact leadsL_append _ _
  · unfold leadsStr
    have h0 : "Could not parse config file " =
        "Could not parse config file" ++ " " := by decide
    have hsplit : "Could not parse config file " ++ p ++ ": " ++ e =
        "Could not parse config file" ++ (" " ++ p ++ ": " ++ e) := by
      rw [h0, ← String.append_assoc, ← String.append_assoc, ← String.append_assoc]
    rw [hsplit, String.data_append]
    exact leadsL_append _ _

/-- C10: running with `--show-default-config` exits with success
status without entering interaction, writes nothing to standard error,
and writes to standard output a default configuration text containing
the field name `hint_characters:` and at least one documentation
comment line (optional leading spaces, a `#`, then at least one
character). -/
theorem c10_show_default_config :
    showDefaultConfigOutcome.status = 0
    ∧ showDefaultConfigOutcome.stderr = ""
    ∧ containsL ("hint_characters:".data) showDefaultConfigOutcome.stdout.data = true
    ∧ (splitLines showDefaultConfigOutcome.stdout.data).any isCommentLine = true := by
  refine ⟨rfl, rfl, by decide, by decide⟩

end Mless
